import Mathlib

/-!
Verification of the stopwords repository: a shallow embedding of
`tests/stopwords_python.py` (loader, filter, counter) and
`generate-stopwords-data.py` (data-file generator), with theorems
settling the specification claims.

Text is modelled as `List Char`; Python's `str.lower` is modelled
per-character with `Char.toLower`, `\w` as alphanumeric-or-underscore,
`\s` and `str.split()` with `Char.isWhitespace`. The filesystem is a
partial map from path strings to file contents (lists of lines).
-/

namespace Stopwords

/-- A token: one word-like unit of text. -/
abbrev Token := List Char

/-- Python regex `\w`: a word character is a letter, digit or underscore. -/
def isWordChar (c : Char) : Bool := c.isAlphanum || c = '_'

/-- Python `str.lower()`, applied character by character. -/
def lowerChars (s : List Char) : List Char := s.map Char.toLower

/-- Python `str.strip()`: remove leading and trailing whitespace. -/
def stripEnds (s : List Char) : List Char :=
  ((s.dropWhile Char.isWhitespace).reverse.dropWhile Char.isWhitespace).reverse

/-- Regex word boundary after a word character: holds when the remaining
text is empty or starts with a non-word character. -/
def noWordAhead : List Char → Bool
  | [] => true
  | c :: _ => !isWordChar c

/-- Scanner for `stripPossessive`: the first argument is the character at
the current scan position, the second the text after it. An apostrophe
followed by `s` at a word boundary is replaced by a single space and the
scan resumes after the replaced pair; otherwise the scan moves on by one
character. -/
def possessiveGo : Char → List Char → List Char
  | c, [] => [c]
  | '\'', 's' :: rest =>
    if noWordAhead rest then
      ' ' :: (match rest with
        | [] => []
        | r :: rs => possessiveGo r rs)
    else '\'' :: possessiveGo 's' rest
  | c, c2 :: rest => c :: possessiveGo c2 rest

/-- Python `re.sub(r"'s\b", ' ', s)`: left-to-right non-overlapping
replacement of the possessive suffix by a single space. -/
def stripPossessive : List Char → List Char
  | [] => []
  | c :: rest => possessiveGo c rest

/-- Python `re.sub(r'[^\w\s]', ' ', s)`: every character that is neither a
word character nor whitespace becomes a single space. -/
def stripPunct (s : List Char) : List Char :=
  s.map (fun c => if isWordChar c || c.isWhitespace then c else ' ')

/-- Helper for `splitWs`: `acc` holds the characters of the current token
in reverse. -/
def splitWsAux : List Char → List Char → List Token
  | [], acc => if acc = [] then [] else [acc.reverse]
  | c :: rest, acc =>
    if c.isWhitespace then
      if acc = [] then splitWsAux rest [] else acc.reverse :: splitWsAux rest []
    else
      splitWsAux rest (c :: acc)

/-- Python `str.split()` with no argument: split on runs of whitespace,
discarding empty pieces. -/
def splitWs (s : List Char) : List Token := splitWsAux s []

/-- Python set insertion: adding an element already present leaves the set
unchanged; a new element is appended. -/
def insertToken (s : List Token) (w : Token) : List Token :=
  if w ∈ s then s else s ++ [w]

/-- The filesystem seen by the loader: a partial map from paths to file
contents, one entry per line (line terminators already removed). -/
abbrev FileSys := String → Option (List (List Char))

/-- Python path resolution: the data directory next to the script plus
`language.txt`. -/
def dataPath (scriptDir lang : String) : String :=
  scriptDir ++ "/data/" ++ lang ++ ".txt"

/-- The error raised by `load_stopwords` when the data file is missing
(Python `FileNotFoundError`, the spec's `StopwordsFileNotFound`). -/
inductive LoadError
  | stopwordsFileNotFound (path : String)
deriving DecidableEq

/-- The human-readable message carried by a load error. -/
def LoadError.message : LoadError → String
  | .stopwordsFileNotFound p => "Stopwords file not found: " ++ p

/-- Build the stopword set from the file's lines: each line stripped of
surrounding whitespace, lowercased, and added to the set. -/
def buildSet (lines : List (List Char)) : List Token :=
  lines.foldl (fun s l => insertToken s (lowerChars (stripEnds l))) []

/-- Loader `load_stopwords(language)`: resolve the data path; raise if the file
does not exist, otherwise return the set built from its lines. -/
def load_stopwords (fs : FileSys) (scriptDir lang : String) :
    Except LoadError (List Token) :=
  match fs (dataPath scriptDir lang) with
  | none => .error (.stopwordsFileNotFound (dataPath scriptDir lang))
  | some lines => .ok (buildSet lines)

/-- The list-comprehension predicate `word and word not in stopwords`. -/
def keepWord (sw : List Token) (w : Token) : Bool :=
  decide (w ≠ [] ∧ w ∉ sw)

/-- Filter `filter_stopwords(text, language, keep_punctuation)`: lowercase, then
either split on whitespace only (`keep_punctuation`) or strip possessives
and punctuation first; finally drop empty tokens and stopwords. -/
def filter_stopwords (fs : FileSys) (scriptDir : String) (text : List Char)
    (lang : String) (keep_punctuation : Bool) : Except LoadError (List Token) :=
  match load_stopwords fs scriptDir lang with
  | .error e => .error e
  | .ok stopwords =>
    let lower_text := lowerChars text
    let words :=
      if keep_punctuation then
        splitWs lower_text
      else
        splitWs (stripPunct (stripPossessive lower_text))
    .ok (words.filter (keepWord stopwords))

/-- Python dictionary update `counts[word] = counts.get(word, 0) + 1` on
an insertion-ordered
dictionary: increment in place if the key exists, else append with count 1. -/
def updateCount : List (Token × Nat) → Token → List (Token × Nat)
  | [], w => [(w, 1)]
  | (k, v) :: rest, w =>
    if k = w then (k, v + 1) :: rest else (k, v) :: updateCount rest w

/-- The counting loop of `count_words`: tally each word that is non-empty
and not a stopword. -/
def countLoop (sw : List Token) : List (Token × Nat) → List Token → List (Token × Nat)
  | m, [] => m
  | m, w :: ws => countLoop sw (if keepWord sw w then updateCount m w else m) ws

/-- Counter `count_words(text, language, keep_punctuation)`: same preprocessing as
`filter_stopwords`, then a frequency dictionary of the surviving words. -/
def count_words (fs : FileSys) (scriptDir : String) (text : List Char)
    (lang : String) (keep_punctuation : Bool) :
    Except LoadError (List (Token × Nat)) :=
  match load_stopwords fs scriptDir lang with
  | .error e => .error e
  | .ok stopwords =>
    let lower_text := lowerChars text
    let words :=
      if keep_punctuation then
        splitWs lower_text
      else
        splitWs (stripPunct (stripPossessive lower_text))
    .ok (countLoop stopwords [] words)

/-- First value stored under a key in an association list, 0 if absent. -/
def lookupCount : List (Token × Nat) → Token → Nat
  | [], _ => 0
  | (k, v) :: rest, w => if k = w then v else lookupCount rest w

/-- Sum of the counts in a frequency dictionary. -/
def sumVals (m : List (Token × Nat)) : Nat := (m.map Prod.snd).sum

/-- The preprocessing pipeline as the specification words it for
`keep_punctuation = false`: lowercase, strip possessive suffixes, strip
punctuation, split on whitespace runs, keep non-empty non-stopword tokens
in order. -/
def specFilterNoPunct (sw : List Token) (text : List Char) : List Token :=
  (splitWs (stripPunct (stripPossessive (lowerChars text)))).filter (keepWord sw)

/-- The pipeline as the specification words it for
`keep_punctuation = true`: lowercase, split on whitespace runs only, keep
non-empty non-stopword tokens in order. -/
def specFilterKeepPunct (sw : List Token) (text : List Char) : List Token :=
  (splitWs (lowerChars text)).filter (keepWord sw)

/-! ### Generator (`generate-stopwords-data.py`) -/

/-- The external corpus: the available language identifiers and, for each,
its raw word list (`stopwords.fileids()` and `stopwords.words(lang)`). -/
structure Corpus where
  fileids : List String
  words : String → List String

/-- A word equal to its own lowercased form. -/
def isLowerWord (s : String) : Bool := s.data.all (fun c => c.toLower = c)

/-- Python `sorted` on strings: the lexicographically sorted permutation. -/
def sortStrings (l : List String) : List String :=
  List.insertionSort (fun a b : String => a ≤ b) l

/-- The lines of the file the generator writes for a language:
`sorted(stopwords.words(language))`, one word per line. -/
def genLines (c : Corpus) (lang : String) : List String :=
  sortStrings (c.words lang)

/-- The filesystem seen by the generator: path to list of lines. -/
abbrev GenFS := String → Option (List String)

/-- The sequence of file writes one generator run performs, in order:
for each language in sorted order, the resolved path and the lines. -/
def genWrites (scriptDir : String) (c : Corpus) : List (String × List String) :=
  (sortStrings c.fileids).map (fun lang => (dataPath scriptDir lang, genLines c lang))

/-- Apply a sequence of file writes to a filesystem; each write replaces
the full content at its path (Python open mode `w`). -/
def applyWrites (fs : GenFS) (ws : List (String × List String)) : GenFS :=
  ws.foldl (fun fs w => fun p => if p = w.1 then some w.2 else fs p) fs

/-- One successful generator run: write every language's file. -/
def generatorRun (scriptDir : String) (c : Corpus) (fs : GenFS) : GenFS :=
  applyWrites fs (genWrites scriptDir c)

/-- How the corpus source may respond: available, missing
(Python `LookupError`, the spec's `DataSourceUnavailable`), or any other
unexpected failure carrying a message. -/
inductive CorpusSource
  | available (c : Corpus)
  | dataSourceUnavailable
  | otherFailure (msg : String)

/-- Outcome of a generator invocation: process exit code and the lines
written to standard error. -/
structure GenOutcome where
  exitCode : Nat
  stderrLines : List String
deriving DecidableEq

/-- The generator's `main`: on `LookupError` print the missing-corpus
message plus the remediation hint and exit 1; on any other exception print
its message and exit 1; otherwise exit 0. -/
def generatorMain (src : CorpusSource) : GenOutcome :=
  match src with
  | .available _ => { exitCode := 0, stderrLines := [] }
  | .dataSourceUnavailable =>
    { exitCode := 1
      stderrLines :=
        ["Error: NLTK stopwords corpus not found."
        , "Please download it with: python -m nltk.downloader stopwords"] }
  | .otherFailure msg =>
    { exitCode := 1, stderrLines := ["Error: " ++ msg] }

/-- Last content written to a path by a write sequence, if any. -/
def lastWrite : List (String × List String) → String → Option (List String)
  | [], _ => none
  | w :: ws, p =>
    match lastWrite ws p with
    | some v => some v
    | none => if p = w.1 then some w.2 else none

/-! ### Concrete fixtures used to instantiate the theorems -/

/-- A filesystem holding one English stopword file with entries
`the` and `a`. -/
def fsEnglish : FileSys := fun p =>
  if p = dataPath "." "english" then some ["the".data, "a".data] else none

/-- The stopword set loaded from `fsEnglish`. -/
def swEnglish : List Token := [['t', 'h', 'e'], ['a']]

/-- A corpus whose English word list has an uppercase word and a
duplicate. -/
def cBad : Corpus := { fileids := ["english"], words := fun _ => ["a", "A", "a"] }

/-- A corpus whose English word list is lowercase and duplicate-free. -/
def cGood : Corpus := { fileids := ["english"], words := fun _ => ["b", "a"] }

/-! ### Lemmas about whitespace splitting and punctuation stripping -/

theorem splitWsAux_ne_nil (s : List Char) :
    ∀ acc : List Char, ∀ t ∈ splitWsAux s acc, t ≠ [] := by
  induction s with
  | nil =>
    intro acc t ht
    simp only [splitWsAux] at ht
    split at ht
    · simp at ht
    · next h =>
      simp only [List.mem_singleton] at ht
      subst ht
      simpa using h
  | cons c rest ih =>
    intro acc t ht
    simp only [splitWsAux] at ht
    split at ht
    · split at ht
      · exact ih [] t ht
      · next h =>
        rcases List.mem_cons.mp ht with h1 | h1
        · subst h1; simpa using h
        · exact ih [] t h1
    · exact ih (c :: acc) t ht

theorem splitWsAux_chars (s : List Char) :
    ∀ acc : List Char, ∀ t ∈ splitWsAux s acc, ∀ c ∈ t,
      c ∈ acc ∨ (c ∈ s ∧ c.isWhitespace = false) := by
  induction s with
  | nil =>
    intro acc t ht c hc
    simp only [splitWsAux] at ht
    split at ht
    · simp at ht
    · simp only [List.mem_singleton] at ht
      subst ht
      exact Or.inl (List.mem_reverse.mp hc)
  | cons ch rest ih =>
    intro acc t ht c hc
    simp only [splitWsAux] at ht
    split at ht
    · next hws =>
      split at ht
      · rcases ih [] t ht c hc with h | h
        · simp at h
        · exact Or.inr ⟨List.mem_cons_of_mem _ h.1, h.2⟩
      · rcases List.mem_cons.mp ht with h1 | h1
        · subst h1
          exact Or.inl (List.mem_reverse.mp hc)
        · rcases ih [] t h1 c hc with h | h
          · simp at h
          · exact Or.inr ⟨List.mem_cons_of_mem _ h.1, h.2⟩
    · next hws =>
      rcases ih (ch :: acc) t ht c hc with h | h
      · rcases List.mem_cons.mp h with h2 | h2
        · subst h2
          exact Or.inr ⟨List.mem_cons_self _ _, by simpa using hws⟩
        · exact Or.inl h2
      · exact Or.inr ⟨List.mem_cons_of_mem _ h.1, h.2⟩

theorem splitWs_ne_nil (s : List Char) : ∀ t ∈ splitWs s, t ≠ [] :=
  splitWsAux_ne_nil s []

theorem splitWs_chars (s : List Char) :
    ∀ t ∈ splitWs s, ∀ c ∈ t, c ∈ s ∧ c.isWhitespace = false := by
  intro t ht c hc
  rcases splitWsAux_chars s [] t ht c hc with h | h
  · simp at h
  · exact h

theorem stripPunct_chars (s : List Char) :
    ∀ c ∈ stripPunct s, (isWordChar c || c.isWhitespace) = true := by
  intro c hc
  simp only [stripPunct, List.mem_map] at hc
  obtain ⟨a, _, rfl⟩ := hc
  split
  · next h => exact h
  · decide

/-! ### Lemmas about set construction in the loader -/

theorem mem_insertToken (s : List Token) (w w' : Token) :
    w' ∈ insertToken s w ↔ w' ∈ s ∨ w' = w := by
  simp only [insertToken]
  split
  · next h =>
    constructor
    · exact Or.inl
    · rintro (h1 | rfl)
      · exact h1
      · exact h
  · simp

theorem nodup_insertToken (s : List Token) (w : Token) (h : s.Nodup) :
    (insertToken s w).Nodup := by
  simp only [insertToken]
  split
  · exact h
  · next hw =>
    rw [← List.concat_eq_append]
    exact h.concat hw

theorem mem_foldl_insertToken (f : List Char → Token) (lines : List (List Char)) :
    ∀ acc : List Token, ∀ w : Token,
      (w ∈ lines.foldl (fun s l => insertToken s (f l)) acc ↔
        w ∈ acc ∨ ∃ l ∈ lines, w = f l) := by
  induction lines with
  | nil => intro acc w; simp
  | cons a ls ih =>
    intro acc w
    simp only [List.foldl_cons, ih, mem_insertToken, List.mem_cons]
    constructor
    · rintro ((h | h) | ⟨l, hl, rfl⟩)
      · exact Or.inl h
      · exact Or.inr ⟨a, Or.inl rfl, h⟩
      · exact Or.inr ⟨l, Or.inr hl, rfl⟩
    · rintro (h | ⟨l, hl | hl, rfl⟩)
      · exact Or.inl (Or.inl h)
      · subst hl; exact Or.inl (Or.inr rfl)
      · exact Or.inr ⟨l, hl, rfl⟩

theorem nodup_foldl_insertToken (f : List Char → Token) (lines : List (List Char)) :
    ∀ acc : List Token, acc.Nodup →
      (lines.foldl (fun s l => insertToken s (f l)) acc).Nodup := by
  induction lines with
  | nil => intro acc h; simpa using h
  | cons a ls ih =>
    intro acc h
    exact ih _ (nodup_insertToken acc (f a) h)

theorem mem_buildSet (lines : List (List Char)) (w : Token) :
    w ∈ buildSet lines ↔ ∃ l ∈ lines, w = lowerChars (stripEnds l) := by
  simpa using mem_foldl_insertToken (fun l => lowerChars (stripEnds l)) lines [] w

theorem nodup_buildSet (lines : List (List Char)) : (buildSet lines).Nodup :=
  nodup_foldl_insertToken (fun l => lowerChars (stripEnds l)) lines [] List.nodup_nil

/-! ### Lemmas about the frequency dictionary -/

theorem sumVals_updateCount (m : List (Token × Nat)) (w : Token) :
    sumVals (updateCount m w) = sumVals m + 1 := by
  induction m with
  | nil => simp [updateCount, sumVals]
  | cons p rest ih =>
    obtain ⟨k, v⟩ := p
    simp only [updateCount]
    split
    · simp [sumVals]
      omega
    · simp [sumVals] at ih ⊢
      omega

theorem lookupCount_updateCount (m : List (Token × Nat)) (w w' : Token) :
    lookupCount (updateCount m w) w' = lookupCount m w' + if w' = w then 1 else 0 := by
  induction m with
  | nil =>
    simp only [updateCount, lookupCount]
    by_cases h : w = w'
    · subst h; simp
    · rw [if_neg h, if_neg (fun hh => h hh.symm)]
  | cons p rest ih =>
    obtain ⟨k, v⟩ := p
    simp only [updateCount]
    split
    · next hk =>
      subst hk
      by_cases hk' : k = w'
      · subst hk'; simp [lookupCount]
      · simp [lookupCount, hk', Ne.symm hk']
    · next hk =>
      by_cases hk' : k = w'
      · subst hk'
        simp [lookupCount, hk]
      · simp [lookupCount, hk', ih]

theorem mem_keys_updateCount (m : List (Token × Nat)) (w w' : Token) :
    w' ∈ (updateCount m w).map Prod.fst ↔ w' ∈ m.map Prod.fst ∨ w' = w := by
  induction m with
  | nil => simp [updateCount]
  | cons p rest ih =>
    obtain ⟨k, v⟩ := p
    simp only [updateCount]
    split
    · next hk =>
      subst hk
      simp only [List.map_cons, List.mem_cons]
      tauto
    · simp only [List.map_cons, List.mem_cons, ih]
      tauto

theorem vals_pos_updateCount (m : List (Token × Nat)) (w : Token)
    (h : ∀ p ∈ m, 1 ≤ p.2) : ∀ p ∈ updateCount m w, 1 ≤ p.2 := by
  induction m with
  | nil =>
    intro p hp
    simp only [updateCount, List.mem_singleton] at hp
    subst hp
    simp
  | cons q rest ih =>
    obtain ⟨k, v⟩ := q
    simp only [updateCount]
    split
    · intro p hp
      rcases List.mem_cons.mp hp with rfl | hp
      · simp
      · exact h p (List.mem_cons_of_mem _ hp)
    · intro p hp
      rcases List.mem_cons.mp hp with rfl | hp
      · exact h (k, v) (List.mem_cons_self _ _)
      · exact ih (fun q hq => h q (List.mem_cons_of_mem _ hq)) p hp

theorem sumVals_foldl (ts : List Token) :
    ∀ m, sumVals (ts.foldl updateCount m) = sumVals m + ts.length := by
  induction ts with
  | nil => simp
  | cons t ts ih =>
    intro m
    simp only [List.foldl_cons, ih, sumVals_updateCount, List.length_cons]
    omega

theorem lookupCount_foldl (ts : List Token) :
    ∀ m w, lookupCount (ts.foldl updateCount m) w = lookupCount m w + ts.count w := by
  induction ts with
  | nil => simp
  | cons t ts ih =>
    intro m w
    simp only [List.foldl_cons, ih, lookupCount_updateCount, List.count_cons,
      beq_iff_eq]
    rcases eq_or_ne w t with rfl | h
    · simp
      omega
    · simp [h, Ne.symm h]

theorem mem_keys_foldl (ts : List Token) :
    ∀ m w, w ∈ (ts.foldl updateCount m).map Prod.fst ↔
      w ∈ m.map Prod.fst ∨ w ∈ ts := by
  induction ts with
  | nil => simp
  | cons t ts ih =>
    intro m w
    simp only [List.foldl_cons, ih, mem_keys_updateCount, List.mem_cons]
    tauto

theorem vals_pos_foldl (ts : List Token) :
    ∀ m, (∀ p ∈ m, 1 ≤ p.2) → ∀ p ∈ ts.foldl updateCount m, 1 ≤ p.2 := by
  induction ts with
  | nil => intro m h; simpa using h
  | cons t ts ih =>
    intro m h
    exact ih _ (vals_pos_updateCount m t h)

theorem countLoop_eq_foldl (sw : List Token) (ws : List Token) :
    ∀ m, countLoop sw m ws = (ws.filter (keepWord sw)).foldl updateCount m := by
  induction ws with
  | nil => intro m; rfl
  | cons w ws ih =>
    intro m
    simp only [countLoop, List.filter_cons]
    cases h : keepWord sw w
    · simp [h, ih]
    · simp [h, ih]

/-! ### Lemmas about generator filesystem writes -/

theorem applyWrites_apply (ws : List (String × List String)) :
    ∀ (fs : GenFS) (p : String),
      applyWrites fs ws p = (lastWrite ws p).or (fs p) := by
  induction ws with
  | nil => intro fs p; rfl
  | cons w ws ih =>
    intro fs p
    simp only [applyWrites, List.foldl_cons] at *
    rw [ih]
    cases h : lastWrite ws p
    · simp only [lastWrite, h, Option.or]
      split <;> simp
    · simp only [lastWrite, h, Option.or]

/-! ### Claim theorems -/

/-- C1: for every input text and every language whose stopword file loads
successfully, `filter_stopwords` with `keep_punctuation = false` returns
exactly the sequence obtained by lowercasing the text, replacing each
possessive suffix with a space, replacing each non-word non-whitespace
character with a space, splitting on whitespace runs, and keeping in order
the tokens that are non-empty and not stopwords; empty input yields the
empty sequence. -/
theorem filter_no_punct_follows_spec_pipeline (fs : FileSys) (d lang : String)
    (sw : List Token) (h : load_stopwords fs d lang = .ok sw) (text : List Char) :
    filter_stopwords fs d text lang false = .ok (specFilterNoPunct sw text) ∧
    filter_stopwords fs d [] lang false = .ok [] := by
  constructor
  · simp [filter_stopwords, h, specFilterNoPunct]
  · have e1 : splitWs (stripPunct (stripPossessive (lowerChars []))) = [] := rfl
    simp [filter_stopwords, h, e1]

theorem filter_no_punct_follows_spec_pipeline_witness :
    filter_stopwords fsEnglish "." "The quick fox".data "english" false =
      .ok ["quick".data, "fox".data] ∧
    filter_stopwords fsEnglish "." [] "english" false = .ok [] :=
  ⟨(filter_no_punct_follows_spec_pipeline fsEnglish "." "english" swEnglish rfl
      "The quick fox".data).1.trans rfl,
   (filter_no_punct_follows_spec_pipeline fsEnglish "." "english" swEnglish rfl
      "The quick fox".data).2⟩

/-- C6: for every input text and language whose stopword file loads
successfully, `filter_stopwords` with `keep_punctuation = true` splits the
lowercased text on whitespace runs only, with no punctuation or
possessive stripping, and removes exactly the tokens that are empty or
exact-string-equal to a stopword. -/
theorem filter_keep_punct_splits_on_whitespace_only (fs : FileSys)
    (d lang : String) (sw : List Token)
    (h : load_stopwords fs d lang = .ok sw) (text : List Char) :
    filter_stopwords fs d text lang true = .ok (specFilterKeepPunct sw text) := by
  simp [filter_stopwords, h, specFilterKeepPunct]

theorem filter_keep_punct_splits_on_whitespace_only_witness :
    filter_stopwords fsEnglish "." "Hello,   world!!".data "english" true =
      .ok ["hello,".data, "world!!".data] :=
  (filter_keep_punct_splits_on_whitespace_only fsEnglish "." "english" swEnglish
    rfl "Hello,   world!!".data).trans rfl

/-- C4: for every language whose data file exists, `load_stopwords`
returns a duplicate-free set whose members are exactly the stripped,
lowercased forms of the file's lines; every line contributes and nothing
else is rejected. -/
theorem load_builds_clean_set (fs : FileSys) (d lang : String)
    (lines : List (List Char)) (h : fs (dataPath d lang) = some lines) :
    load_stopwords fs d lang = .ok (buildSet lines) ∧
    (buildSet lines).Nodup ∧
    ∀ w, w ∈ buildSet lines ↔ ∃ l ∈ lines, w = lowerChars (stripEnds l) := by
  refine ⟨?_, nodup_buildSet lines, fun w => mem_buildSet lines w⟩
  simp [load_stopwords, h]

theorem load_builds_clean_set_witness :
    load_stopwords fsEnglish "." "english" = .ok (buildSet ["the".data, "a".data]) ∧
    (buildSet ["the".data, "a".data]).Nodup ∧
    (['t', 'h', 'e'] ∈ buildSet ["the".data, "a".data] ↔
      ∃ l ∈ ["the".data, "a".data], ['t', 'h', 'e'] = lowerChars (stripEnds l)) :=
  ⟨(load_builds_clean_set fsEnglish "." "english" ["the".data, "a".data] rfl).1,
   (load_builds_clean_set fsEnglish "." "english" ["the".data, "a".data] rfl).2.1,
   (load_builds_clean_set fsEnglish "." "english" ["the".data, "a".data] rfl).2.2
     ['t', 'h', 'e']⟩

/-- C5: `load_stopwords` fails exactly when the resolved data file is
missing; the error is `StopwordsFileNotFound`, its message names the
resolved path, and no set is produced on failure. -/
theorem load_missing_file_error (fs : FileSys) (d lang : String) :
    (∀ e, load_stopwords fs d lang = .error e ↔
      fs (dataPath d lang) = none ∧
        e = .stopwordsFileNotFound (dataPath d lang)) ∧
    ((∃ s, load_stopwords fs d lang = .ok s) ↔
      ∃ ls, fs (dataPath d lang) = some ls) ∧
    (LoadError.stopwordsFileNotFound (dataPath d lang)).message =
      "Stopwords file not found: " ++ dataPath d lang := by
  refine ⟨fun e => ?_, ?_, rfl⟩
  · cases h : fs (dataPath d lang) <;> simp [load_stopwords, h, eq_comm]
  · cases h : fs (dataPath d lang) <;> simp [load_stopwords, h]

/-- C2: whenever `count_words` and `filter_stopwords` both succeed on the
same input, the summed counts equal the filtered sequence's length, the
key set equals the set of distinct tokens of that sequence, and each
key's count is that token's number of occurrences in the sequence. -/
theorem count_words_matches_filter (fs : FileSys) (d : String)
    (text : List Char) (lang : String) (keep : Bool)
    (l : List Token) (m : List (Token × Nat))
    (hf : filter_stopwords fs d text lang keep = .ok l)
    (hc : count_words fs d text lang keep = .ok m) :
    sumVals m = l.length ∧
    (∀ w, w ∈ m.map Prod.fst ↔ w ∈ l) ∧
    ∀ w, lookupCount m w = l.count w := by
  cases h : load_stopwords fs d lang with
  | error e =>
    simp [filter_stopwords, h] at hf
  | ok sw =>
    simp only [filter_stopwords, h, Except.ok.injEq] at hf
    simp only [count_words, h, Except.ok.injEq] at hc
    subst hf
    subst hc
    rw [countLoop_eq_foldl]
    refine ⟨?_, fun w => ?_, fun w => ?_⟩
    · rw [sumVals_foldl]
      simp [sumVals]
    · rw [mem_keys_foldl]
      simp
    · rw [lookupCount_foldl]
      simp [lookupCount]

theorem count_words_matches_filter_witness :
    sumVals [(['c', 'a', 't'], 2), (['a', 'n', 'd'], 1), (['s', 'a', 't'], 1)] =
      [['c', 'a', 't'], ['a', 'n', 'd'], ['c', 'a', 't'], ['s', 'a', 't']].length ∧
    lookupCount [(['c', 'a', 't'], 2), (['a', 'n', 'd'], 1), (['s', 'a', 't'], 1)]
        ['c', 'a', 't'] =
      [['c', 'a', 't'], ['a', 'n', 'd'], ['c', 'a', 't'], ['s', 'a', 't']].count
        ['c', 'a', 't'] :=
  ⟨(count_words_matches_filter fsEnglish "." "the cat and the cat sat".data
      "english" false
      [['c', 'a', 't'], ['a', 'n', 'd'], ['c', 'a', 't'], ['s', 'a', 't']]
      [(['c', 'a', 't'], 2), (['a', 'n', 'd'], 1), (['s', 'a', 't'], 1)]
      rfl rfl).1,
   (count_words_matches_filter fsEnglish "." "the cat and the cat sat".data
      "english" false
      [['c', 'a', 't'], ['a', 'n', 'd'], ['c', 'a', 't'], ['s', 'a', 't']]
      [(['c', 'a', 't'], 2), (['a', 'n', 'd'], 1), (['s', 'a', 't'], 1)]
      rfl rfl).2.2 ['c', 'a', 't']⟩

/-- C9: when `count_words` succeeds, every count in the returned map is at
least 1 and the empty string is never a key. -/
theorem count_words_values_positive (fs : FileSys) (d : String)
    (text : List Char) (lang : String) (keep : Bool) (m : List (Token × Nat))
    (h : count_words fs d text lang keep = .ok m) :
    ∀ w v, (w, v) ∈ m → 1 ≤ v ∧ w ≠ [] := by
  cases hld : load_stopwords fs d lang with
  | error e =>
    simp [count_words, hld] at h
  | ok sw =>
    simp only [count_words, hld, Except.ok.injEq] at h
    subst h
    intro w v hm
    rw [countLoop_eq_foldl] at hm
    constructor
    · exact vals_pos_foldl _ [] (by simp) (w, v) hm
    · have hk := List.mem_map_of_mem Prod.fst hm
      rw [mem_keys_foldl] at hk
      rcases hk with h1 | h1
      · simp at h1
      · have h2 := List.of_mem_filter h1
        simp only [keepWord, decide_eq_true_eq] at h2
        exact h2.1

theorem count_words_values_positive_witness :
    1 ≤ 2 ∧ ['c', 'a', 't'] ≠ [] :=
  count_words_values_positive fsEnglish "." "the cat and the cat sat".data
    "english" false
    [(['c', 'a', 't'], 2), (['a', 'n', 'd'], 1), (['s', 'a', 't'], 1)] rfl
    ['c', 'a', 't'] 2 (by simp)

/-- C10: when `filter_stopwords` succeeds with `keep_punctuation = false`,
every returned token is non-empty and consists only of word characters,
so contains no whitespace, punctuation or apostrophe. -/
theorem filter_no_punct_tokens_word_chars (fs : FileSys) (d : String)
    (text : List Char) (lang : String) (l : List Token)
    (h : filter_stopwords fs d text lang false = .ok l) :
    ∀ w ∈ l, w ≠ [] ∧ ∀ c ∈ w, isWordChar c = true := by
  cases hld : load_stopwords fs d lang with
  | error e =>
    simp [filter_stopwords, hld] at h
  | ok sw =>
    simp only [filter_stopwords, hld, Except.ok.injEq] at h
    rw [if_neg (by simp)] at h
    subst h
    intro w hw
    have hw' : w ∈ splitWs (stripPunct (stripPossessive (lowerChars text))) :=
      List.mem_of_mem_filter hw
    refine ⟨splitWs_ne_nil _ w hw', fun c hc => ?_⟩
    have h2 := splitWs_chars _ w hw' c hc
    have h3 := stripPunct_chars _ c h2.1
    rcases (by simpa using h3 : isWordChar c = true ∨ c.isWhitespace = true) with h4 | h4
    · exact h4
    · rw [h2.2] at h4
      exact absurd h4 (by simp)

theorem filter_no_punct_tokens_word_chars_witness :
    ['t', 'e', 's', 't'] ≠ [] ∧ isWordChar 't' = true :=
  ⟨(filter_no_punct_tokens_word_chars fsEnglish "." "It's a test.".data
      "english" [['i', 't'], ['t', 'e', 's', 't']] rfl
      ['t', 'e', 's', 't'] (by simp)).1,
   (filter_no_punct_tokens_word_chars fsEnglish "." "It's a test.".data
      "english" [['i', 't'], ['t', 'e', 's', 't']] rfl
      ['t', 'e', 's', 't'] (by simp)).2 't' (by simp)⟩

/-- C3 (counterexample): with a corpus whose English word list is
`["a", "A", "a"]`, the generated file contains the non-lowercase entry
`"A"` (and duplicate lines), so the claim that every generated file
contains only lowercase entries, is sorted and duplicate-free fails. -/
theorem generated_file_not_always_lower_nodup :
    ¬ (∀ lang ∈ cBad.fileids,
        (∀ w ∈ genLines cBad lang, isLowerWord w = true) ∧
        List.Sorted (fun a b : String => a ≤ b) (genLines cBad lang) ∧
        (genLines cBad lang).Nodup) := by
  intro hcl
  obtain ⟨hlow, -, -⟩ := hcl "english" (by simp [cBad])
  have hmem : "A" ∈ genLines cBad "english" := by
    unfold genLines sortStrings
    exact (List.perm_insertionSort _ _).mem_iff.mpr (by simp [cBad])
  exact absurd (hlow "A" hmem) (by decide)

/-- C3 (amended): every generated file is lexicographically sorted; and
when the corpus word list for a language is all-lowercase it contains only
lowercase entries, and when that list is duplicate-free it has no
duplicate lines. -/
theorem genLines_sorted_lower_nodup (c : Corpus) (lang : String) :
    List.Sorted (fun a b : String => a ≤ b) (genLines c lang) ∧
    ((∀ w ∈ c.words lang, isLowerWord w = true) →
      ∀ w ∈ genLines c lang, isLowerWord w = true) ∧
    ((c.words lang).Nodup → (genLines c lang).Nodup) := by
  refine ⟨List.sorted_insertionSort _ _, ?_, ?_⟩
  · intro h w hw
    exact h w ((List.perm_insertionSort _ _).mem_iff.mp hw)
  · intro h
    exact (List.perm_insertionSort _ _).nodup_iff.mpr h

theorem genLines_sorted_lower_nodup_witness :
    List.Sorted (fun a b : String => a ≤ b) (genLines cGood "english") ∧
    isLowerWord "a" = true ∧
    (genLines cGood "english").Nodup :=
  ⟨(genLines_sorted_lower_nodup cGood "english").1,
   (genLines_sorted_lower_nodup cGood "english").2.1 (by decide) "a"
     (by unfold genLines sortStrings
         exact (List.perm_insertionSort _ _).mem_iff.mpr (by simp [cGood])),
   (genLines_sorted_lower_nodup cGood "english").2.2 (by decide)⟩

/-- C7: running the generator twice against the same corpus leaves the
filesystem in the same state as running it once -- each run writes the
same content to the same paths, and a rewrite overwrites identically. -/
theorem generator_rerun_identical (d : String) (c : Corpus) (fs : GenFS) :
    generatorRun d c (generatorRun d c fs) = generatorRun d c fs := by
  funext p
  simp only [generatorRun, applyWrites_apply]
  cases h : lastWrite (genWrites d c) p <;> simp [Option.or]

/-- C8: when the corpus is unavailable the generator exits non-zero and
prints the missing-corpus message with a remediation hint; any other
failure also exits non-zero with an error message. -/
theorem generator_failure_exit (msg : String) :
    (generatorMain .dataSourceUnavailable).exitCode ≠ 0 ∧
    "Error: NLTK stopwords corpus not found." ∈
      (generatorMain .dataSourceUnavailable).stderrLines ∧
    "Please download it with: python -m nltk.downloader stopwords" ∈
      (generatorMain .dataSourceUnavailable).stderrLines ∧
    (generatorMain (.otherFailure msg)).exitCode ≠ 0 ∧
    "Error: " ++ msg ∈ (generatorMain (.otherFailure msg)).stderrLines := by
  refine ⟨by simp [generatorMain], by simp [generatorMain],
    by simp [generatorMain], by simp [generatorMain], by simp [generatorMain]⟩

end Stopwords
